import Mathlib

/-!
# Link validator (`scripts/validate-links.mjs`)

A shallow embedding of the blog link validator and the properties of it that
are checked against its specification.

Modelling conventions

* A JavaScript string is a `List Char` (`Str`).  Every string operation of the
  script that is modelled here cuts a string only next to an ASCII character,
  so counting code points instead of UTF-16 units changes no result.
* The platform is an `Env`: the two content directories, `path.join`, the
  filesystem (`readFile`, `readdir`) and the network (`fetch`).  The network
  answer may depend on the probes made so far.
* The module-level mutable objects (`results`, `urlCache`, the `lastIndex` of
  the two global regular expressions) are the fields of `State`, which also
  logs every network probe and every `readFile` call.
-/

namespace ValidateLinks

abbrev Str := List Char

/-! ## Platform -/

/-- The request method of a probe. -/
inductive Method where
  | HEAD
  | GET
  deriving DecidableEq, Repr

/-- What `await fetch(...)` does: it rejects (network error, or abort when the
timer fires), or it resolves to a response with a status code. -/
inductive FetchResult where
  | threw
  | response (status : Nat)
  deriving DecidableEq, Repr

/-- The getter `response.ok`: the status is in the range 200-299. -/
def statusOk (status : Nat) : Bool :=
  decide (200 ≤ status) && decide (status ≤ 299)

/-- The environment the script runs in. -/
structure Env where
  /-- Models `resolve(__dirname, '../src/content/blog')` -/
  BLOG_DIR : Str
  /-- Models `resolve(__dirname, '../src/content/docs')` -/
  DOCS_DIR : Str
  /-- Models `path.join` -/
  join : List Str → Str
  /-- Models `readFile(path)`: the text of the file, or `none` when the call rejects -/
  readFile : Str → Option Str
  /-- Models `readdir(path)`: the entry names, or `none` when the call rejects -/
  readdir : Str → Option (List Str)
  /-- Models `fetch(url, {method})`, given the probes made before this one -/
  fetch : List (Method × Str) → Method → Str → FetchResult

/-! ## Module state -/

/-- One object pushed to a bucket of `results`. -/
structure Entry where
  file : Str
  link : Str
  reason : Option Str := none
  type : Option Str := none
  status : Option Str := none
  deriving DecidableEq, Repr

/-- The object `results`. -/
structure Results where
  valid : List Entry := []
  invalid : List Entry := []
  skipped : List Entry := []
  internal : List Entry := []
  deriving DecidableEq, Repr

/-- The mutable state of the module, with the two access logs. -/
structure State where
  results : Results := {}
  /-- Models `urlCache`, a `Map` in insertion order -/
  urlCache : List (Str × Bool) := []
  /-- Models `MARKDOWN_LINK_REGEX.lastIndex` -/
  mdLastIndex : Nat := 0
  /-- Models `MDX_LINK_REGEX.lastIndex` -/
  mdxLastIndex : Nat := 0
  /-- every `fetch` issued so far, oldest first -/
  probes : List (Method × Str) := []
  /-- every path handed to `readFile` so far, oldest first -/
  reads : List Str := []
  deriving DecidableEq, Repr

/-- The state when the module has just been loaded. -/
def State.init : State := {}

/-- Models `Map.prototype.get` (with `has`: `none` when the key is absent). -/
def mapGet : List (Str × Bool) → Str → Option Bool
  | [], _ => none
  | (k, v) :: m, key => if k = key then some v else mapGet m key

/-- Models `Map.prototype.set`. -/
def mapSet : List (Str × Bool) → Str → Bool → List (Str × Bool)
  | [], key, val => [(key, val)]
  | (k, v) :: m, key, val => if k = key then (key, val) :: m else (k, v) :: mapSet m key val

/-! ## `checkUrl` -/

/-- Models `checkUrl(url)`: the returned boolean and the state afterwards. -/
def checkUrl (env : Env) (url : Str) (s : State) : Bool × State :=
  match mapGet s.urlCache url with
  | some cached => (cached, s)
  | none =>
    let s1 := { s with probes := s.probes ++ [(Method.HEAD, url)] }
    match env.fetch s.probes Method.HEAD url with
    | FetchResult.response status =>
      let isValid := statusOk status || decide (status = 405)
      (isValid, { s1 with urlCache := mapSet s1.urlCache url isValid })
    | FetchResult.threw =>
      let s2 := { s1 with probes := s1.probes ++ [(Method.GET, url)] }
      match env.fetch s1.probes Method.GET url with
      | FetchResult.response status =>
        let isValid := statusOk status
        (isValid, { s2 with urlCache := mapSet s2.urlCache url isValid })
      | FetchResult.threw =>
        (false, { s2 with urlCache := mapSet s2.urlCache url false })

/-- A run of `checkUrl` calls, one after the other. -/
def checkUrls (env : Env) : List Str → State → State
  | [], s => s
  | url :: urls, s => checkUrls env urls (checkUrl env url s).2

/-! ## String helpers -/

/-- Models `String.prototype.startsWith`. -/
def startsWith (s p : Str) : Bool := p.isPrefixOf s

/-- Models `String.prototype.endsWith`. -/
def endsWith (s p : Str) : Bool := p.reverse.isPrefixOf s.reverse

/-- Models `String.prototype.split` with a one-character separator. -/
def split (sep : Char) : Str → List Str
  | [] => [[]]
  | c :: cs =>
    if c = sep then [] :: split sep cs
    else
      match split sep cs with
      | [] => [[c]]
      | w :: ws => (c :: w) :: ws

/-- Models `s.replace(/^\//, '')`: one leading slash is removed. -/
def removeLeadingSlash : Str → Str
  | '/' :: cs => cs
  | s => s

/-- Models `s.replace(/\.html$/, '')`: a trailing `.html` is removed. -/
def removeHtmlExtension (s : Str) : Str :=
  if endsWith s ".html".toList then s.take (s.length - 5) else s

/-- Models `s.replace(/\/$/, '')`: one trailing slash is removed. -/
def removeTrailingSlash (s : Str) : Str :=
  if endsWith s "/".toList then s.take (s.length - 1) else s

/-- Models `s.replace(/^blog\/?/, '')`: a leading `blog`, and a slash right after it,
are removed. -/
def removeBlogRoot (s : Str) : Str :=
  if startsWith s "blog".toList then
    match s.drop 4 with
    | '/' :: cs => cs
    | r => r
  else s

/-! ## `checkInternalLink` -/

/-- The loop `for (const filePath of paths) { try { await readFile(filePath);
return true } catch {} }`: `true` at the first candidate that can be read,
`false` when the loop runs to its end. -/
def tryRead (env : Env) : List Str → State → Bool × State
  | [], s => (false, s)
  | filePath :: rest, s =>
    let s1 := { s with reads := s.reads ++ [filePath] }
    match env.readFile filePath with
    | some _ => (true, s1)
    | none => tryRead env rest s1

/-- The value of `path` after the first five lines of `checkInternalLink`. -/
def linkPath (link : Str) : Str :=
  let path := removeTrailingSlash (removeHtmlExtension (removeLeadingSlash link))
  let basePath := (split '#' path).headD []
  if basePath = [] then "index".toList else basePath

/-- The candidates of the lookup in the docs directory. -/
def possiblePaths (env : Env) (path : Str) : List Str :=
  [ env.join [env.DOCS_DIR, path ++ ".mdx".toList],
    env.join [env.DOCS_DIR, path ++ ".md".toList],
    env.join [env.DOCS_DIR, path, "index.mdx".toList],
    env.join [env.DOCS_DIR, path, "index.md".toList] ]

/-- The candidates of the lookup in the blog directory. -/
def blogPossiblePaths (env : Env) (blogPath : Str) : List Str :=
  [ env.join [env.BLOG_DIR, blogPath ++ ".mdx".toList],
    env.join [env.BLOG_DIR, blogPath ++ ".md".toList] ]

/-- Models `checkInternalLink(link)`: the returned boolean and the state afterwards. -/
def checkInternalLink (env : Env) (link : Str) (s : State) : Bool × State :=
  let path := linkPath link
  if path = "blog".toList ∨ startsWith path "blog/".toList then
    let blogPath := removeBlogRoot path
    if blogPath = [] ∨ blogPath = "index".toList then (true, s)
    else
      match tryRead env (blogPossiblePaths env blogPath) s with
      | (true, s1) => (true, s1)
      | (false, s1) => tryRead env (possiblePaths env path) s1
  else tryRead env (possiblePaths env path) s

/-! ## The two regular expressions

Both patterns are built from single characters, character classes, greedy
`*` and `+` on a class, and capture groups.  `matchHere` is a backtracking
matcher for that fragment. -/

/-- A character or a character class. -/
inductive CharSet where
  | only (c : Char)
  | anyOf (cs : List Char)
  | noneOf (cs : List Char)
  deriving DecidableEq, Repr

/-- Whether a character belongs to the class. -/
def CharSet.test : CharSet → Char → Bool
  | CharSet.only c, x => decide (x = c)
  | CharSet.anyOf cs, x => cs.contains x
  | CharSet.noneOf cs, x => !cs.contains x

/-- One element of a pattern; `mark` is the opening or closing parenthesis of
a capture group. -/
inductive Tok where
  | one (cs : CharSet)
  | star (cs : CharSet)
  | plus (cs : CharSet)
  | mark
  deriving DecidableEq, Repr

/-- The result of a match attempt: the input left after the match and the
input left at each `mark`, in pattern order. -/
abbrev MatchEnd := Str × List Str

/-- Greedy repetition of a class followed by the continuation `k`: the longest
run is tried first, then shorter ones. -/
def starLoop (cs : CharSet) (k : Str → Option MatchEnd) : Str → Option MatchEnd
  | [] => k []
  | c :: t =>
    if cs.test c then
      match starLoop cs k t with
      | some r => some r
      | none => k (c :: t)
    else k (c :: t)

/-- Match the pattern at the start of the input. -/
def matchHere : List Tok → Str → Option MatchEnd
  | [] => fun inp => some (inp, [])
  | Tok.mark :: rest => fun inp =>
    match matchHere rest inp with
    | some (r, marks) => some (r, inp :: marks)
    | none => none
  | Tok.one cs :: rest => fun inp =>
    match inp with
    | [] => none
    | c :: t => if cs.test c then matchHere rest t else none
  | Tok.star cs :: rest => fun inp => starLoop cs (matchHere rest) inp
  | Tok.plus cs :: rest => fun inp =>
    match inp with
    | [] => none
    | c :: t => if cs.test c then starLoop cs (matchHere rest) t else none

/-- Models `MARKDOWN_LINK_REGEX = /\[([^\]]*)\]\(([^)]+)\)/g`. -/
def MARKDOWN_LINK_REGEX : List Tok :=
  [ Tok.one (CharSet.only '['),
    Tok.mark, Tok.star (CharSet.noneOf [']']), Tok.mark,
    Tok.one (CharSet.only ']'),
    Tok.one (CharSet.only '('),
    Tok.mark, Tok.plus (CharSet.noneOf [')']), Tok.mark,
    Tok.one (CharSet.only ')') ]

/-- The two quote characters `"` and the apostrophe. -/
def quotes : List Char := [Char.ofNat 34, Char.ofNat 39]

/-- Models `MDX_LINK_REGEX = /href=["']([^"']+)["']/g`. -/
def MDX_LINK_REGEX : List Tok :=
  [ Tok.one (CharSet.only 'h'), Tok.one (CharSet.only 'r'),
    Tok.one (CharSet.only 'e'), Tok.one (CharSet.only 'f'),
    Tok.one (CharSet.only '='),
    Tok.one (CharSet.anyOf quotes),
    Tok.mark, Tok.plus (CharSet.noneOf quotes), Tok.mark,
    Tok.one (CharSet.anyOf quotes) ]

/-- The captured texts, from the inputs left at the marks taken in pairs. -/
def captures : List Str → List Str
  | a :: b :: rest => a.take (a.length - b.length) :: captures rest
  | _ => []

/-- The array `match` of a successful match that started on `inp`:
`match[0]`, `match[1]`, ... -/
def matchArray (inp : Str) (r : MatchEnd) : List Str :=
  inp.take (inp.length - r.1.length) :: captures r.2

/-- The leftmost match at or after the start of `inp`: the input at the start
of the match and the match there. -/
def search (re : List Tok) : Str → Option (Str × MatchEnd)
  | [] =>
    match matchHere re [] with
    | some r => some ([], r)
    | none => none
  | c :: t =>
    match matchHere re (c :: t) with
    | some r => some (c :: t, r)
    | none => search re t

/-- Models `re.exec(content)` for a global regular expression whose `lastIndex` is
`lastIndex`: the array `match` or `null`, and the new `lastIndex`. -/
def exec (re : List Tok) (content : Str) (lastIndex : Nat) : Option (List Str) × Nat :=
  if content.length < lastIndex then (none, 0)
  else
    match search re (content.drop lastIndex) with
    | none => (none, 0)
    | some (inp, r) => (some (matchArray inp r), content.length - r.1.length)

/-! ## `extractLinks` -/

/-- Models `Set.prototype.add` on a set kept in insertion order. -/
def setAdd (links : List Str) (x : Str) : List Str :=
  if x ∈ links then links else links ++ [x]

/-- The loop `while ((match = re.exec(content)) !== null) links.add(match[g])`.
It runs at most `fuel` calls of `exec`; `none` means that the loop is still
running after them.  The result is the set and the final `lastIndex`. -/
def scanLoop (re : List Tok) (g : Nat) (content : Str) :
    Nat → Nat → List Str → Option (List Str × Nat)
  | 0, _, _ => none
  | fuel + 1, lastIndex, links =>
    match exec re content lastIndex with
    | (none, li) => some (links, li)
    | (some m, li) => scanLoop re g content fuel li (setAdd links (m.getD g []))

/-- Models `extractLinks(content)` with at most `fuel` iterations of each loop. -/
def extractLinksFuel (fuel : Nat) (content : Str) (s : State) : Option (List Str × State) :=
  match scanLoop MARKDOWN_LINK_REGEX 2 content fuel s.mdLastIndex [] with
  | none => none
  | some (links1, li1) =>
    let s1 := { s with mdLastIndex := li1 }
    let s2 := { s1 with mdLastIndex := 0 }
    match scanLoop MDX_LINK_REGEX 1 content fuel s2.mdxLastIndex links1 with
    | none => none
    | some (links2, li2) =>
      let s3 := { s2 with mdxLastIndex := li2 }
      let s4 := { s3 with mdxLastIndex := 0 }
      some (links2, s4)

/-- Models `extractLinks(content)`: the returned array and the state afterwards.
Each loop gets `content.length + 1` iterations. -/
def extractLinks (content : Str) (s : State) : Option (List Str × State) :=
  extractLinksFuel (content.length + 1) content s

/-! ## `validatePost`, `getBlogFiles`, `main` -/

/-- Why a call did not complete. -/
inductive Fault where
  /-- Models `readFile` rejected for this path -/
  | readFailed (path : Str)
  /-- a scan loop of `extractLinks` did not end -/
  | scanDiverged
  deriving DecidableEq, Repr

/-- Models `results.valid.push(e)`. -/
def pushValid (s : State) (e : Entry) : State :=
  { s with results := { s.results with valid := s.results.valid ++ [e] } }

/-- Models `results.invalid.push(e)`. -/
def pushInvalid (s : State) (e : Entry) : State :=
  { s with results := { s.results with invalid := s.results.invalid ++ [e] } }

/-- Models `results.skipped.push(e)`. -/
def pushSkipped (s : State) (e : Entry) : State :=
  { s with results := { s.results with skipped := s.results.skipped ++ [e] } }

/-- Models `results.internal.push(e)`. -/
def pushInternal (s : State) (e : Entry) : State :=
  { s with results := { s.results with internal := s.results.internal ++ [e] } }

/-- The test `link.startsWith('mailto:') || link.startsWith('tel:') ||
link.startsWith('#')`. -/
def isExcluded (link : Str) : Bool :=
  startsWith link "mailto:".toList || startsWith link "tel:".toList ||
    startsWith link "#".toList

/-- The test `link.startsWith('http://') || link.startsWith('https://')`. -/
def isExternal (link : Str) : Bool :=
  startsWith link "http://".toList || startsWith link "https://".toList

/-- The body of the loop `for (const link of links)` of `validatePost`. -/
def validateLink (env : Env) (fileName link : Str) (s : State) : State :=
  if isExcluded link then
    pushSkipped s { file := fileName, link := link, reason := some "Protocol excluded".toList }
  else if isExternal link then
    match checkUrl env link s with
    | (true, s1) => pushValid s1 { file := fileName, link := link }
    | (false, s1) => pushInvalid s1 { file := fileName, link := link }
  else if startsWith link "/".toList then
    match checkInternalLink env link s with
    | (true, s1) =>
      pushInternal s1 { file := fileName, link := link, status := some "valid".toList }
    | (false, s1) =>
      pushInvalid s1 { file := fileName, link := link, type := some "internal".toList }
  else
    pushSkipped s { file := fileName, link := link, reason := some "Relative link".toList }

/-- The loop `for (const link of links)` of `validatePost`. -/
def validateLinks (env : Env) (fileName : Str) : List Str → State → State
  | [], s => s
  | link :: links, s => validateLinks env fileName links (validateLink env fileName link s)

/-- Models `validatePost(filePath)`: the state afterwards, and the fault when the
call rejects. -/
def validatePost (env : Env) (filePath : Str) (s : State) : State × Option Fault :=
  let s0 := { s with reads := s.reads ++ [filePath] }
  match env.readFile filePath with
  | none => (s0, some (Fault.readFailed filePath))
  | some content =>
    match extractLinks content s0 with
    | none => (s0, some Fault.scanDiverged)
    | some (links, s1) =>
      let fileName := (split '/' filePath).getLastD []
      (validateLinks env fileName links s1, none)

/-- Models `getBlogFiles()`. -/
def getBlogFiles (env : Env) : List Str :=
  match env.readdir env.BLOG_DIR with
  | some files =>
    (files.filter (fun f => endsWith f ".mdx".toList || endsWith f ".md".toList)).map
      (fun f => env.join [env.BLOG_DIR, f])
  | none => []

/-- The loop `for (const file of blogFiles) await validatePost(file)` of
`main`: it ends at the first call that rejects. -/
def validatePosts (env : Env) : List Str → State → State × Option Fault
  | [], s => (s, none)
  | file :: files, s =>
    match validatePost env file s with
    | (s1, none) => validatePosts env files s1
    | (s1, some e) => (s1, some e)

/-- How the run of `main` ends. -/
inductive Outcome where
  /-- the early `return` after "No blog posts found" -/
  | noPosts
  /-- the summary is printed and `main` returns after "All links are valid!" -/
  | allValid
  /-- the summary and the invalid links are printed, then `process.exit(1)` -/
  | exit1
  /-- the promise of `main` rejects before the summary; `.catch(console.error)`
  prints the error -/
  | rejected (e : Fault)
  deriving DecidableEq, Repr

/-- Models `main()`, run from the state `s`. -/
def main (env : Env) (s : State) : Outcome × State :=
  let blogFiles := getBlogFiles env
  if blogFiles.length = 0 then (Outcome.noPosts, s)
  else
    match validatePosts env blogFiles s with
    | (s1, some e) => (Outcome.rejected e, s1)
    | (s1, none) =>
      if 0 < s1.results.invalid.length then (Outcome.exit1, s1)
      else (Outcome.allValid, s1)

/-- The exit status of the process.  Only `process.exit(1)` sets one; a
rejection of `main` is handled by `.catch(console.error)`, so the process then
ends like a normal return. -/
def exitStatus : Outcome → Nat
  | Outcome.exit1 => 1
  | _ => 0

/-- The whole script: `main()` on the freshly loaded module. -/
def run (env : Env) : Outcome × State := main env State.init

/-! ## Concrete environments -/

/-- The strings joined by `/`. -/
def joinSlash : List Str → Str
  | [] => []
  | [a] => a
  | a :: b :: rest => a ++ '/' :: joinSlash (b :: rest)

/-- The segment loop of `path.normalize`: empty segments and `.` are dropped,
`..` removes the segment before it, or is kept when there is none and the
path is relative.  `acc` holds the segments kept so far, last first. -/
def normalizeSegments (allowAboveRoot : Bool) : List Str → List Str → List Str
  | acc, [] => acc.reverse
  | acc, seg :: rest =>
    if seg = [] ∨ seg = ".".toList then normalizeSegments allowAboveRoot acc rest
    else if seg = "..".toList then
      match acc with
      | [] =>
        if allowAboveRoot then normalizeSegments allowAboveRoot ["..".toList] rest
        else normalizeSegments allowAboveRoot [] rest
      | top :: below =>
        if top = "..".toList then
          if allowAboveRoot then normalizeSegments allowAboveRoot (seg :: top :: below) rest
          else normalizeSegments allowAboveRoot (top :: below) rest
        else normalizeSegments allowAboveRoot below rest
    else normalizeSegments allowAboveRoot (seg :: acc) rest

/-- Models `path.normalize` of Node on POSIX. -/
def normalize (path : Str) : Str :=
  if path = [] then ".".toList
  else
    let isAbsolute := decide (path.head? = some '/')
    let trailingSeparator := decide (path.getLast? = some '/')
    let body := joinSlash (normalizeSegments (!isAbsolute) [] (split '/' path))
    if body = [] then
      if isAbsolute then "/".toList
      else if trailingSeparator then "./".toList else ".".toList
    else
      let body := if trailingSeparator then body ++ "/".toList else body
      if isAbsolute then '/' :: body else body

/-- Models `path.join` of Node on POSIX: the non-empty arguments joined by
`/`, then normalised. -/
def posixJoin (args : List Str) : Str :=
  match args.filter (fun a => !a.isEmpty) with
  | [] => ".".toList
  | parts => normalize (joinSlash parts)

/-- The text stored under a path in a list of files. -/
def lookupFile : List (Str × Str) → Str → Option Str
  | [], _ => none
  | (p, text) :: rest, path => if p = path then some text else lookupFile rest path

/-- A site rooted at `/site` with the given files and blog directory listing,
and a network that answers by method only. -/
def siteEnv (files : List (Str × Str)) (listing : Option (List Str))
    (net : Method → FetchResult) : Env where
  BLOG_DIR := "/site/src/content/blog".toList
  DOCS_DIR := "/site/src/content/docs".toList
  join := posixJoin
  readFile := lookupFile files
  readdir := fun _ => listing
  fetch := fun _ m _ => net m

/-- A network whose HEAD probe is answered 404 and whose GET probe is
answered 200. -/
def head404get200 : Method → FetchResult
  | Method.HEAD => FetchResult.response 404
  | Method.GET => FetchResult.response 200

/-- A network that answers 405 to a HEAD probe and 500 to a GET probe. -/
def head405 : Method → FetchResult
  | Method.HEAD => FetchResult.response 405
  | Method.GET => FetchResult.response 500

/-- A network on which every probe fails. -/
def offline : Method → FetchResult := fun _ => FetchResult.threw

/-- An empty site on the network `head404get200`. -/
def env404 : Env := siteEnv [] none head404get200

/-- The URL of the example. -/
def pageUrl : Str := "https://example.com/page".toList

/-- A site whose docs directory holds `blog/my-post.md` and whose blog
directory is empty. -/
def envDocsBlog : Env :=
  siteEnv [("/site/src/content/docs/blog/my-post.md".toList, [])] (some []) offline

/-- A site with no file at all. -/
def envEmpty : Env := siteEnv [] (some []) offline

/-- A site whose docs directory holds `guide.md`. -/
def envGuide : Env :=
  siteEnv [("/site/src/content/docs/guide.md".toList, [])] (some []) offline

/-- Whether `readFile` resolves for the path. -/
def canRead (env : Env) (filePath : Str) : Bool := (env.readFile filePath).isSome

/-- A text with two bracket links, one of them twice, and one attribute
link. -/
def demoText : Str :=
  "See [a](https://a.example) and [b](/docs/b), <a href=\"#top\">up</a>, [a](https://a.example).".toList

/-- The file name used in the examples. -/
def postName : Str := "post.md".toList

/-- The link `mailto:hello@example.com`. -/
def mailLink : Str := "mailto:hello@example.com".toList

/-- The path of the post `a.md`. -/
def postA : Str := "/site/src/content/blog/a.md".toList

/-- The path of the post `b.md`. -/
def postB : Str := "/site/src/content/blog/b.md".toList

/-- A site whose blog directory lists `a.md` and `b.md`; `a.md` cannot be
read, `b.md` holds a link to a page that does not exist. -/
def envTwoPosts : Env :=
  siteEnv [(postB, "[x](/missing)".toList)] (some ["a.md".toList, "b.md".toList]) offline

/-- A site whose blog directory lists `b.md` and a text file; `b.md` holds a
link to a page that does not exist and a mail link. -/
def envBroken : Env :=
  siteEnv [(postB, "[x](/missing) [m](mailto:a@b.c)".toList)]
    (some ["b.md".toList, "notes.txt".toList]) offline

/-- A network that answers 200 to every probe. -/
def online : Method → FetchResult := fun _ => FetchResult.response 200

/-- A text with a mail link, an external link, an internal link and a relative
link. -/
def mixedText : Str :=
  "[m](mailto:hello@example.com) [w](https://example.com/page) [x](/missing) [r](other.md)".toList

/-- A site whose blog directory lists `b.md`, which holds `mixedText`; every
probe is answered 200 and the docs directory is empty. -/
def envMixed : Env := siteEnv [(postB, mixedText)] (some ["b.md".toList]) online

/-! ## Definitions used in the statements -/

/-- The path the specification assigns to an internal link: one leading `/`
removed, then a trailing `.html`, then one trailing `/`, then cut before the
first `#`, and `index` when nothing is left. -/
def specPath (link : Str) : Str :=
  let a := link.tail
  let b := match a.reverse with
    | 'l' :: 'm' :: 't' :: 'h' :: '.' :: r => r.reverse
    | _ => a
  let c := match b.reverse with
    | '/' :: r => r.reverse
    | _ => b
  let d := c.takeWhile (fun ch => ch != '#')
  if d.isEmpty then "index".toList else d

/-- The least number of characters a match of the pattern takes. -/
def minLen : List Tok → Nat
  | [] => 0
  | Tok.one _ :: rest => minLen rest + 1
  | Tok.plus _ :: rest => minLen rest + 1
  | Tok.star _ :: rest => minLen rest
  | Tok.mark :: rest => minLen rest

/-- The targets of the successive non-overlapping matches of a pattern in a
text, scanned from the start of the text: at each step the leftmost match in
what is left of the text is taken and the scan goes on right after it. -/
inductive SuccessiveMatches (re : List Tok) (g : Nat) : Str → List Str → Prop where
  | done (text : Str) :
    (∀ t, t <:+ text → matchHere re t = none) → SuccessiveMatches re g text []
  | hit (skipped inp : Str) (r : MatchEnd) (targets : List Str) :
    (∀ t, t <:+ skipped ++ inp → inp.length < t.length → matchHere re t = none) →
    matchHere re inp = some r →
    SuccessiveMatches re g r.1 targets →
    SuccessiveMatches re g (skipped ++ inp) ((matchArray inp r).getD g [] :: targets)

/-- A list without its repetitions: of equal strings the first is kept. -/
def keepFirst : List Str → List Str
  | [] => []
  | x :: xs => x :: (keepFirst xs).filter (fun y => y != x)

/-- The number of entries in the four buckets. -/
def Results.total (r : Results) : Nat :=
  r.valid.length + r.invalid.length + r.skipped.length + r.internal.length

/-- A link that starts with `mailto:`, `tel:` or `#`. -/
def ExcludedLink (link : Str) : Prop :=
  "mailto:".toList <+: link ∨ "tel:".toList <+: link ∨ "#".toList <+: link

/-- A link that starts with `http://` or `https://`. -/
def ExternalLink (link : Str) : Prop :=
  "http://".toList <+: link ∨ "https://".toList <+: link

/-- A link that starts with `/`. -/
def InternalLink (link : Str) : Prop := "/".toList <+: link

/-! ## Theorems: `checkUrl` -/


theorem mapGet_mapSet_self (m : List (Str × Bool)) (key : Str) (val : Bool) :
    mapGet (mapSet m key val) key = some val := by
  induction m with
  | nil => simp [mapSet, mapGet]
  | cons kv m ih =>
    obtain ⟨k, v⟩ := kv
    by_cases h : k = key
    · simp [mapSet, mapGet, h]
    · simp [mapSet, mapGet, h, ih]

theorem mapGet_mapSet_other (m : List (Str × Bool)) (key key2 : Str) (val : Bool)
    (hne : key2 ≠ key) : mapGet (mapSet m key val) key2 = mapGet m key2 := by
  induction m with
  | nil => simp [mapSet, mapGet, Ne.symm hne]
  | cons kv m ih =>
    obtain ⟨k, v⟩ := kv
    by_cases h : k = key
    · subst h
      simp [mapSet, mapGet, Ne.symm hne]
    · by_cases h2 : k = key2
      · subst h2
        simp [mapSet, mapGet, h]
      · simp [mapSet, mapGet, h, h2, ih]

theorem checkUrl_hit (env : Env) (url : Str) (s : State) (b : Bool)
    (h : mapGet s.urlCache url = some b) : checkUrl env url s = (b, s) := by
  simp [checkUrl, h]

theorem checkUrl_cache_self (env : Env) (url : Str) (s : State) :
    mapGet (checkUrl env url s).2.urlCache url = some (checkUrl env url s).1 := by
  unfold checkUrl
  cases hc : mapGet s.urlCache url with
  | some b => simpa using hc
  | none =>
    cases hh : env.fetch s.probes Method.HEAD url with
    | response status => simp [mapGet_mapSet_self]
    | threw =>
      cases hg : env.fetch (s.probes ++ [(Method.HEAD, url)]) Method.GET url with
      | response status => simp [hg, mapGet_mapSet_self]
      | threw => simp [hg, mapGet_mapSet_self]

theorem checkUrl_cache_other (env : Env) (url key : Str) (s : State) (hne : key ≠ url) :
    mapGet (checkUrl env url s).2.urlCache key = mapGet s.urlCache key := by
  unfold checkUrl
  cases hc : mapGet s.urlCache url with
  | some b => simp
  | none =>
    cases hh : env.fetch s.probes Method.HEAD url with
    | response status => simp [mapGet_mapSet_other _ _ _ _ hne]
    | threw =>
      cases hg : env.fetch (s.probes ++ [(Method.HEAD, url)]) Method.GET url with
      | response status => simp [hg, mapGet_mapSet_other _ _ _ _ hne]
      | threw => simp [hg, mapGet_mapSet_other _ _ _ _ hne]

theorem checkUrl_keeps_entry (env : Env) (url key : Str) (s : State) (b : Bool)
    (h : mapGet s.urlCache key = some b) :
    mapGet (checkUrl env url s).2.urlCache key = some b := by
  by_cases hk : key = url
  · subst hk
    rw [checkUrl_hit env key s b h]
    exact h
  · rw [checkUrl_cache_other env url key s hk]
    exact h

theorem checkUrls_keeps_entry (env : Env) (urls : List Str) (key : Str) (b : Bool) :
    ∀ s : State, mapGet s.urlCache key = some b →
      mapGet (checkUrls env urls s).urlCache key = some b := by
  induction urls with
  | nil => intro s h; simpa [checkUrls] using h
  | cons u us ih =>
    intro s h
    simp only [checkUrls]
    exact ih _ (checkUrl_keeps_entry env u key s b h)

/-- C4. Every call `checkUrl(url)` leaves the returned boolean in the cache
under `url` and changes the entry of no other key; after any further calls of
`checkUrl`, a call with the same `url` returns the same boolean and leaves the
state, and so the log of network probes, as it was. -/
theorem checkUrl_caches_result (env : Env) (url : Str) (s : State) (between : List Str) :
    mapGet (checkUrl env url s).2.urlCache url = some (checkUrl env url s).1 ∧
    (∀ key, key ≠ url →
      mapGet (checkUrl env url s).2.urlCache key = mapGet s.urlCache key) ∧
    checkUrl env url (checkUrls env between (checkUrl env url s).2) =
      ((checkUrl env url s).1, checkUrls env between (checkUrl env url s).2) ∧
    (checkUrl env url (checkUrls env between (checkUrl env url s).2)).2.probes =
      (checkUrls env between (checkUrl env url s).2).probes := by
  have hself := checkUrl_cache_self env url s
  have hlater := checkUrls_keeps_entry env between url _ _ hself
  have hhit := checkUrl_hit env url _ _ hlater
  refine ⟨hself, fun key hne => checkUrl_cache_other env url key s hne, hhit, ?_⟩
  rw [hhit]

/-- C2, as stated, fails: with a HEAD probe answered 404 and a GET probe that
would be answered 200, `checkUrl` returns `false` and never sends the GET. -/
theorem checkUrl_head404_get200_invalid :
    mapGet State.init.urlCache pageUrl = none ∧
    env404.fetch [] Method.HEAD pageUrl = FetchResult.response 404 ∧
    env404.fetch [(Method.HEAD, pageUrl)] Method.GET pageUrl = FetchResult.response 200 ∧
    (checkUrl env404 pageUrl State.init).1 = false ∧
    (checkUrl env404 pageUrl State.init).2.probes = [(Method.HEAD, pageUrl)] := by
  decide

/-- C2, amended. For a URL not in the cache, `checkUrl` returns `true` exactly
when the HEAD probe is answered with a successful status or 405, or the HEAD
probe throws (error or timeout) and the GET probe is answered with a
successful status.  A HEAD probe that is answered, whatever the status, is
the only probe sent. -/
theorem checkUrl_valid_iff (env : Env) (url : Str) (s : State)
    (h : mapGet s.urlCache url = none) :
    ((checkUrl env url s).1 = true ↔
      (∃ status, env.fetch s.probes Method.HEAD url = FetchResult.response status ∧
        (statusOk status = true ∨ status = 405)) ∨
      (env.fetch s.probes Method.HEAD url = FetchResult.threw ∧
        ∃ status, env.fetch (s.probes ++ [(Method.HEAD, url)]) Method.GET url =
            FetchResult.response status ∧ statusOk status = true)) ∧
    (∀ status, env.fetch s.probes Method.HEAD url = FetchResult.response status →
      (checkUrl env url s).2.probes = s.probes ++ [(Method.HEAD, url)]) := by
  unfold checkUrl
  rw [h]
  cases hh : env.fetch s.probes Method.HEAD url with
  | response status => simp
  | threw =>
    cases hg : env.fetch (s.probes ++ [(Method.HEAD, url)]) Method.GET url with
    | response status => simp [hg]
    | threw => simp [hg]

/-- C2, amended, on a network that answers 405 to HEAD: the URL is valid. -/
theorem checkUrl_valid_iff_witness :
    mapGet State.init.urlCache pageUrl = none ∧
    (checkUrl (siteEnv [] none head405) pageUrl State.init).1 = true :=
  ⟨by decide,
    (checkUrl_valid_iff (siteEnv [] none head405) pageUrl State.init (by decide)).1.2
      (Or.inl ⟨405, by decide, Or.inr rfl⟩)⟩

/-! ## Theorems: `checkInternalLink` -/

theorem endsWith_iff (s p : Str) : endsWith s p = true ↔ p <:+ s := by
  unfold endsWith
  rw [List.isPrefixOf_iff_prefix, List.reverse_prefix]

theorem take_length_sub_of_suffix (s p : Str) (h : p <:+ s) :
    s.take (s.length - p.length) ++ p = s := by
  obtain ⟨pre, rfl⟩ := h
  simp

theorem removeHtmlExtension_eq (s : Str) :
    removeHtmlExtension s =
      match s.reverse with
      | 'l' :: 'm' :: 't' :: 'h' :: '.' :: r => r.reverse
      | _ => s := by
  unfold removeHtmlExtension
  by_cases h : endsWith s ".html".toList = true
  · rw [if_pos h]
    obtain ⟨pre, rfl⟩ := (endsWith_iff _ _).1 h
    simp
  · rw [if_neg h]
    split
    · rename_i r hr
      exfalso
      apply h
      rw [endsWith_iff]
      refine ⟨r.reverse, ?_⟩
      have := congrArg List.reverse hr
      simp at this
      simp [this]
    · rfl

theorem removeTrailingSlash_eq (s : Str) :
    removeTrailingSlash s =
      match s.reverse with
      | '/' :: r => r.reverse
      | _ => s := by
  unfold removeTrailingSlash
  by_cases h : endsWith s "/".toList = true
  · rw [if_pos h]
    obtain ⟨pre, rfl⟩ := (endsWith_iff _ _).1 h
    simp
  · rw [if_neg h]
    split
    · rename_i r hr
      exfalso
      apply h
      rw [endsWith_iff]
      refine ⟨r.reverse, ?_⟩
      have := congrArg List.reverse hr
      simp at this
      simp [this]
    · rfl

theorem split_ne_nil (sep : Char) (s : Str) : split sep s ≠ [] := by
  cases s with
  | nil => simp [split]
  | cons c cs =>
    simp only [split]
    split
    · simp
    · split <;> simp

theorem split_headD (sep : Char) (s : Str) :
    (split sep s).headD [] = s.takeWhile (fun ch => ch != sep) := by
  induction s with
  | nil => simp [split]
  | cons c cs ih =>
    simp only [split]
    by_cases h : c = sep
    · simp [h]
    · rw [if_neg h]
      have hne := split_ne_nil sep cs
      cases hs : split sep cs with
      | nil => exact absurd hs hne
      | cons w ws =>
        rw [hs] at ih
        simp at ih
        simp [h, ih]

theorem linkPath_eq_specPath (link : Str) (h : startsWith link "/".toList = true) :
    linkPath link = specPath link := by
  cases link with
  | nil => simp [startsWith] at h
  | cons c cs =>
    have hc : c = '/' := by
      simp [startsWith, List.isPrefixOf] at h
      exact h.symm
    subst hc
    unfold linkPath specPath
    simp only [removeLeadingSlash, List.tail_cons, split_headD]
    rw [removeHtmlExtension_eq, removeTrailingSlash_eq]
    simp only [List.isEmpty_iff]

theorem tryRead_fst (env : Env) (paths : List Str) :
    ∀ s : State, (tryRead env paths s).1 = paths.any (canRead env) := by
  induction paths with
  | nil => intro s; rfl
  | cons f rest ih =>
    intro s
    simp only [tryRead, List.any_cons, canRead]
    cases hf : env.readFile f with
    | some text => simp
    | none =>
      simp only [Option.isSome_none, Bool.false_or]
      rw [ih]

theorem checkInternalLink_fst (env : Env) (link : Str) (s : State) :
    (checkInternalLink env link s).1 =
      if linkPath link = "blog".toList ∨ startsWith (linkPath link) "blog/".toList = true then
        if removeBlogRoot (linkPath link) = [] ∨
            removeBlogRoot (linkPath link) = "index".toList then true
        else
          (blogPossiblePaths env (removeBlogRoot (linkPath link))).any (canRead env) ||
            (possiblePaths env (linkPath link)).any (canRead env)
      else (possiblePaths env (linkPath link)).any (canRead env) := by
  unfold checkInternalLink
  simp only []
  split
  · split
    · rfl
    · have h1 := tryRead_fst env (blogPossiblePaths env (removeBlogRoot (linkPath link))) s
      cases ht : tryRead env (blogPossiblePaths env (removeBlogRoot (linkPath link))) s with
      | mk b s1 =>
        rw [ht] at h1
        cases b with
        | true =>
          simp only at h1
          simp [← h1]
        | false =>
          simp only at h1
          simp only [← h1, Bool.false_or]
          exact tryRead_fst env _ s1
  · exact tryRead_fst env _ s

/-- C3, as stated, fails: with an empty blog directory and a file
`blog/my-post.md` in the docs directory, the link `/blog/my-post#section` is
found; with the docs file removed it is not. -/
theorem checkInternalLink_blog_falls_through_to_docs :
    linkPath "/blog/my-post#section".toList = "blog/".toList ++ "my-post".toList ∧
    envDocsBlog.readFile (envDocsBlog.join [envDocsBlog.BLOG_DIR, "my-post.mdx".toList]) = none ∧
    envDocsBlog.readFile (envDocsBlog.join [envDocsBlog.BLOG_DIR, "my-post.md".toList]) = none ∧
    (checkInternalLink envDocsBlog "/blog/my-post#section".toList State.init).1 = true ∧
    (checkInternalLink envEmpty "/blog/my-post#section".toList State.init).1 = false := by
  decide

/-- C3, amended. For a link whose path is `blog/` followed by a slug that is
neither empty nor `index`, `checkInternalLink` returns `true` exactly when the
blog directory holds `<slug>.mdx` or `<slug>.md`, or the docs directory holds
one of the four candidates of the path `blog/<slug>`. -/
theorem checkInternalLink_blog_post (env : Env) (link slug : Str) (s : State)
    (hpath : linkPath link = "blog/".toList ++ slug)
    (hne : slug ≠ []) (hidx : slug ≠ "index".toList) :
    (checkInternalLink env link s).1 = true ↔
      (env.readFile (env.join [env.BLOG_DIR, slug ++ ".mdx".toList])).isSome = true ∨
      (env.readFile (env.join [env.BLOG_DIR, slug ++ ".md".toList])).isSome = true ∨
      (env.readFile (env.join [env.DOCS_DIR, "blog/".toList ++ slug ++ ".mdx".toList])).isSome = true ∨
      (env.readFile (env.join [env.DOCS_DIR, "blog/".toList ++ slug ++ ".md".toList])).isSome = true ∨
      (env.readFile (env.join [env.DOCS_DIR, "blog/".toList ++ slug, "index.mdx".toList])).isSome = true ∨
      (env.readFile (env.join [env.DOCS_DIR, "blog/".toList ++ slug, "index.md".toList])).isSome = true := by
  rw [checkInternalLink_fst, hpath]
  have hstart : startsWith ("blog/".toList ++ slug) "blog/".toList = true := by
    simp [startsWith, List.isPrefixOf]
  have hroot : removeBlogRoot ("blog/".toList ++ slug) = slug := by
    simp [removeBlogRoot, startsWith, List.isPrefixOf]
  rw [if_pos (Or.inr hstart), hroot, if_neg (by rintro (h | h); exacts [hne h, hidx h])]
  simp [blogPossiblePaths, possiblePaths, canRead, or_assoc]

/-- C3, amended, at the link `/blog/my-post#section` on a site whose docs
directory holds `blog/my-post.md`. -/
theorem checkInternalLink_blog_post_witness :
    linkPath "/blog/my-post#section".toList = "blog/".toList ++ "my-post".toList ∧
    (checkInternalLink envDocsBlog "/blog/my-post#section".toList State.init).1 = true :=
  ⟨by decide,
    (checkInternalLink_blog_post envDocsBlog "/blog/my-post#section".toList "my-post".toList
      State.init (by decide) (by decide) (by decide)).2
      (Or.inr (Or.inr (Or.inr (Or.inl (by decide)))))⟩

/-- C7. For a link that starts with `/` and the path `p` the specification
assigns to it: when `p` is not `blog` and does not start with `blog/`,
`checkInternalLink` returns `true` exactly when one of `<p>.mdx`, `<p>.md`,
`<p>/index.mdx`, `<p>/index.md` under the docs directory can be read (a file
that cannot be read only makes the answer negative); when `p` is `blog` or
`blog/index` it returns `true`. -/
theorem checkInternalLink_docs_lookup (env : Env) (link : Str) (s : State)
    (hslash : startsWith link "/".toList = true) :
    (specPath link ≠ "blog".toList ∧ startsWith (specPath link) "blog/".toList = false →
      ((checkInternalLink env link s).1 = true ↔
        (env.readFile (env.join [env.DOCS_DIR, specPath link ++ ".mdx".toList])).isSome = true ∨
        (env.readFile (env.join [env.DOCS_DIR, specPath link ++ ".md".toList])).isSome = true ∨
        (env.readFile (env.join [env.DOCS_DIR, specPath link, "index.mdx".toList])).isSome = true ∨
        (env.readFile (env.join [env.DOCS_DIR, specPath link, "index.md".toList])).isSome = true)) ∧
    (specPath link = "blog".toList ∨ specPath link = "blog/index".toList →
      (checkInternalLink env link s).1 = true) := by
  rw [checkInternalLink_fst, linkPath_eq_specPath link hslash]
  constructor
  · rintro ⟨h1, h2⟩
    rw [if_neg (by rintro (h | h); exacts [h1 h, by rw [h2] at h; exact Bool.noConfusion h])]
    simp [possiblePaths, canRead]
  · rintro (h | h)
    · rw [h, if_pos (Or.inl rfl), if_pos (Or.inl (by decide))]
    · rw [h, if_pos (Or.inr (by decide)), if_pos (Or.inr (by decide))]

/-- C7 at the link `/guide/` on a site whose docs directory holds
`guide.md`. -/
theorem checkInternalLink_docs_lookup_witness :
    startsWith "/guide/".toList "/".toList = true ∧
    specPath "/guide/".toList = "guide".toList ∧
    (checkInternalLink envGuide "/guide/".toList State.init).1 = true :=
  ⟨by decide, by decide,
    ((checkInternalLink_docs_lookup envGuide "/guide/".toList State.init (by decide)).1
      (by decide)).2 (Or.inr (Or.inl (by decide)))⟩

/-- C10 fails on the code: the link `/guide.html` is found on a site whose
docs directory holds `guide.md`, and the same link with the fragment `#top`
is not; likewise for `/guide/`. -/
theorem checkInternalLink_fragment_changes_result :
    startsWith "/guide.html".toList "/".toList = true ∧ '#' ∉ "/guide.html".toList ∧
    (checkInternalLink envGuide "/guide.html".toList State.init).1 = true ∧
    (checkInternalLink envGuide ("/guide.html".toList ++ '#' :: "top".toList) State.init).1 = false ∧
    linkPath ("/guide.html".toList ++ '#' :: "top".toList) = "guide.html".toList ∧
    startsWith "/guide/".toList "/".toList = true ∧ '#' ∉ "/guide/".toList ∧
    (checkInternalLink envGuide "/guide/".toList State.init).1 = true ∧
    (checkInternalLink envGuide ("/guide/".toList ++ '#' :: "top".toList) State.init).1 = false ∧
    linkPath ("/guide/".toList ++ '#' :: "top".toList) = "guide/".toList := by
  decide

theorem suffix_after_separator (p a f : Str) (c : Char) (hc : c ∉ p)
    (h : p <:+ a ++ c :: f) : p <:+ f := by
  induction a with
  | nil =>
    rcases List.suffix_cons_iff.1 h with heq | hsuf
    · exact absurd (heq ▸ List.mem_cons_self c f) hc
    · exact hsuf
  | cons x a ih =>
    rcases List.suffix_cons_iff.1 h with heq | hsuf
    · exact absurd (heq ▸ (by simp : c ∈ x :: (a ++ c :: f))) hc
    · exact ih hsuf

theorem strip_after_separator (p a f : Str) (hp : '#' ∉ p) :
    ∃ f1, (if endsWith (a ++ '#' :: f) p = true
        then (a ++ '#' :: f).take ((a ++ '#' :: f).length - p.length)
        else a ++ '#' :: f) = a ++ '#' :: f1 := by
  by_cases h : endsWith (a ++ '#' :: f) p = true
  · rw [if_pos h]
    obtain ⟨f0, hf0⟩ := suffix_after_separator p a f '#' hp ((endsWith_iff _ _).1 h)
    refine ⟨f0, ?_⟩
    subst hf0
    have : a ++ '#' :: (f0 ++ p) = (a ++ '#' :: f0) ++ p := by simp
    rw [this, List.length_append, Nat.add_sub_cancel, List.take_left']
    rfl
  · rw [if_neg h]
    exact ⟨f, rfl⟩

theorem takeWhile_before_separator (a f : Str) (ha : '#' ∉ a) :
    (a ++ '#' :: f).takeWhile (fun ch => ch != '#') = a := by
  induction a with
  | nil => simp
  | cons x a ih =>
    have hx : x ≠ '#' := fun h => ha (h ▸ List.mem_cons_self x a)
    have ha2 : '#' ∉ a := fun h => ha (List.mem_cons_of_mem x h)
    simp [hx, ih ha2]

theorem takeWhile_no_separator (a : Str) (ha : '#' ∉ a) :
    a.takeWhile (fun ch => ch != '#') = a := by
  induction a with
  | nil => simp
  | cons x a ih =>
    have hx : x ≠ '#' := fun h => ha (h ▸ List.mem_cons_self x a)
    have ha2 : '#' ∉ a := fun h => ha (List.mem_cons_of_mem x h)
    simp [hx, ih ha2]

theorem linkPath_fragment (L f : Str) (hhash : '#' ∉ L)
    (hhtml : ¬ ".html".toList <:+ L) (hslash : ¬ "/".toList <:+ L) :
    linkPath (L ++ '#' :: f) = linkPath L := by
  have hlead : removeLeadingSlash (L ++ '#' :: f) = removeLeadingSlash L ++ '#' :: f := by
    cases L with
    | nil => simp [removeLeadingSlash]
    | cons c cs =>
      by_cases hc : c = '/'
      · subst hc; simp [removeLeadingSlash]
      · simp only [List.cons_append]
        unfold removeLeadingSlash
        split
        · rename_i heq; simp at heq; exact absurd heq.1 hc
        · split
          · rename_i heq; simp at heq; exact absurd heq.1 hc
          · rfl
  have hsub : removeLeadingSlash L <:+ L := by
    cases L with
    | nil => simp [removeLeadingSlash]
    | cons c cs =>
      unfold removeLeadingSlash
      split
      · rename_i heq; simp at heq; rw [heq.2]; exact List.suffix_cons _ _
      · exact List.suffix_refl _
  have ha : '#' ∉ removeLeadingSlash L := fun h => hhash (hsub.subset h)
  have hh : ¬ endsWith (removeLeadingSlash L) ".html".toList = true := by
    rw [endsWith_iff]; exact fun h => hhtml (h.trans hsub)
  have hs : ¬ endsWith (removeLeadingSlash L) "/".toList = true := by
    rw [endsWith_iff]; exact fun h => hslash (h.trans hsub)
  obtain ⟨f1, hf1⟩ := strip_after_separator ".html".toList (removeLeadingSlash L) f (by decide)
  obtain ⟨f2, hf2⟩ := strip_after_separator "/".toList (removeLeadingSlash L) f1 (by decide)
  have e1 : removeHtmlExtension (removeLeadingSlash L ++ '#' :: f) =
      removeLeadingSlash L ++ '#' :: f1 := hf1
  have e2 : removeTrailingSlash (removeLeadingSlash L ++ '#' :: f1) =
      removeLeadingSlash L ++ '#' :: f2 := hf2
  have e3 : removeHtmlExtension (removeLeadingSlash L) = removeLeadingSlash L := by
    unfold removeHtmlExtension; rw [if_neg hh]
  have e4 : removeTrailingSlash (removeLeadingSlash L) = removeLeadingSlash L := by
    unfold removeTrailingSlash; rw [if_neg hs]
  unfold linkPath
  simp only [hlead, e1, e2, e3, e4, split_headD, takeWhile_before_separator _ _ ha,
    takeWhile_no_separator _ ha]

/-- The fragment of a link does not change the answer of `checkInternalLink`
when the part before it contains no `#` and ends neither in `.html` nor in
`/`. -/
theorem checkInternalLink_fragment (env : Env) (L f : Str) (s : State) (hhash : '#' ∉ L)
    (hhtml : ¬ ".html".toList <:+ L) (hslash : ¬ "/".toList <:+ L) :
    (checkInternalLink env (L ++ '#' :: f) s).1 = (checkInternalLink env L s).1 := by
  rw [checkInternalLink_fst, checkInternalLink_fst, linkPath_fragment L f hhash hhtml hslash]

/-! ## Theorems: the regular expressions and `extractLinks` -/

theorem starLoop_consumes (cs : CharSet) (k : Str → Option MatchEnd) (n : Nat)
    (hk : ∀ inp r, k inp = some r → ∃ pre, inp = pre ++ r.1 ∧ n ≤ pre.length) :
    ∀ inp r, starLoop cs k inp = some r → ∃ pre, inp = pre ++ r.1 ∧ n ≤ pre.length := by
  intro inp
  induction inp with
  | nil => intro r h; exact hk [] r (by simpa [starLoop] using h)
  | cons c t ih =>
    intro r h
    simp only [starLoop] at h
    by_cases hc : cs.test c = true
    · rw [if_pos hc] at h
      cases hs : starLoop cs k t with
      | some r2 =>
        rw [hs] at h
        simp only [Option.some.injEq] at h
        subst h
        obtain ⟨pre, hpre, hlen⟩ := ih r2 hs
        exact ⟨c :: pre, by simp [hpre], by simp; omega⟩
      | none =>
        rw [hs] at h
        exact hk _ r h
    · rw [if_neg hc] at h
      exact hk _ r h

theorem matchHere_consumes (re : List Tok) :
    ∀ inp r, matchHere re inp = some r → ∃ pre, inp = pre ++ r.1 ∧ minLen re ≤ pre.length := by
  induction re with
  | nil =>
    intro inp r h
    simp only [matchHere, Option.some.injEq] at h
    subst h
    exact ⟨[], by simp, by simp [minLen]⟩
  | cons tok rest ih =>
    intro inp r h
    cases tok with
    | mark =>
      simp only [matchHere] at h
      cases hm : matchHere rest inp with
      | none => rw [hm] at h; simp at h
      | some r2 =>
        rw [hm] at h
        simp only [Option.some.injEq] at h
        subst h
        exact ih inp r2 hm
    | one cs =>
      cases inp with
      | nil => simp [matchHere] at h
      | cons c t =>
        simp only [matchHere] at h
        by_cases hc : cs.test c = true
        · rw [if_pos hc] at h
          obtain ⟨pre, hpre, hlen⟩ := ih t r h
          exact ⟨c :: pre, by simp [hpre], by simp [minLen]; omega⟩
        · rw [if_neg hc] at h
          simp at h
    | star cs =>
      simp only [matchHere] at h
      exact starLoop_consumes cs (matchHere rest) (minLen rest) ih inp r h
    | plus cs =>
      cases inp with
      | nil => simp [matchHere] at h
      | cons c t =>
        simp only [matchHere] at h
        by_cases hc : cs.test c = true
        · rw [if_pos hc] at h
          obtain ⟨pre, hpre, hlen⟩ :=
            starLoop_consumes cs (matchHere rest) (minLen rest) ih t r h
          exact ⟨c :: pre, by simp [hpre], by simp [minLen]; omega⟩
        · rw [if_neg hc] at h
          simp at h

theorem search_none (re : List Tok) :
    ∀ text, search re text = none → ∀ t, t <:+ text → matchHere re t = none := by
  intro text
  induction text with
  | nil =>
    intro h t ht
    have : t = [] := List.eq_nil_of_suffix_nil ht
    subst this
    simp only [search] at h
    cases hm : matchHere re [] with
    | none => rfl
    | some r => rw [hm] at h; simp at h
  | cons c cs ih =>
    intro h t ht
    simp only [search] at h
    cases hm : matchHere re (c :: cs) with
    | some r => rw [hm] at h; simp at h
    | none =>
      rw [hm] at h
      rcases List.suffix_cons_iff.1 ht with heq | hsuf
      · rw [heq]; exact hm
      · exact ih h t hsuf

theorem search_some (re : List Tok) :
    ∀ text inp r, search re text = some (inp, r) →
      ∃ skipped, text = skipped ++ inp ∧ matchHere re inp = some r ∧
        ∀ t, t <:+ text → inp.length < t.length → matchHere re t = none := by
  intro text
  induction text with
  | nil =>
    intro inp r h
    simp only [search] at h
    cases hm : matchHere re [] with
    | none => rw [hm] at h; simp at h
    | some r2 =>
      rw [hm] at h
      simp only [Option.some.injEq, Prod.mk.injEq] at h
      obtain ⟨h1, h2⟩ := h
      subst h1 h2
      refine ⟨[], rfl, hm, ?_⟩
      intro t ht hlt
      have : t = [] := List.eq_nil_of_suffix_nil ht
      subst this
      simp at hlt
  | cons c cs ih =>
    intro inp r h
    simp only [search] at h
    cases hm : matchHere re (c :: cs) with
    | some r2 =>
      rw [hm] at h
      simp only [Option.some.injEq, Prod.mk.injEq] at h
      obtain ⟨h1, h2⟩ := h
      subst h1 h2
      refine ⟨[], rfl, hm, ?_⟩
      intro t ht hlt
      have := List.IsSuffix.length_le ht
      omega
    | none =>
      rw [hm] at h
      obtain ⟨skipped, htext, hmatch, hearlier⟩ := ih inp r h
      refine ⟨c :: skipped, by simp [htext], hmatch, ?_⟩
      intro t ht hlt
      rcases List.suffix_cons_iff.1 ht with heq | hsuf
      · rw [heq]; exact hm
      · exact hearlier t hsuf hlt

theorem foldl_setAdd (xs : List Str) :
    ∀ acc : List Str,
      xs.foldl setAdd acc = acc ++ (keepFirst xs).filter (fun y => !acc.contains y) := by
  induction xs with
  | nil => intro acc; simp [keepFirst]
  | cons x xs ih =>
    intro acc
    simp only [List.foldl_cons, keepFirst]
    rw [ih]
    by_cases hx : x ∈ acc
    · simp only [setAdd, if_pos hx]
      rw [List.filter_cons_of_neg (by simpa using hx), List.filter_filter]
      congr 1
      apply List.filter_congr
      intro y _
      by_cases hy : y ∈ acc
      · simp [hy]
      · have : y ≠ x := fun h => hy (h ▸ hx)
        simp [hy, this]
    · simp only [setAdd, if_neg hx]
      rw [List.filter_cons_of_pos (by simpa using hx), List.filter_filter]
      simp only [List.append_assoc, List.singleton_append]
      congr 2
      apply List.filter_congr
      intro y _
      by_cases hy : y ∈ acc
      · simp [hy]
      · by_cases hyx : y = x
        · simp [hyx]
        · simp [hy, hyx]

theorem foldl_setAdd_nil (xs : List Str) : xs.foldl setAdd [] = keepFirst xs := by
  rw [foldl_setAdd]
  simp

theorem mem_keepFirst (xs : List Str) (y : Str) : y ∈ keepFirst xs ↔ y ∈ xs := by
  induction xs with
  | nil => simp [keepFirst]
  | cons x xs ih =>
    simp only [keepFirst, List.mem_cons, List.mem_filter, ih]
    by_cases h : y = x
    · simp [h]
    · simp [h]

theorem nodup_keepFirst (xs : List Str) : (keepFirst xs).Nodup := by
  induction xs with
  | nil => simp [keepFirst]
  | cons x xs ih =>
    simp only [keepFirst, List.nodup_cons]
    exact ⟨by simp [List.mem_filter], ih.filter _⟩

theorem keepFirst_append (xs ys : List Str) :
    keepFirst (xs ++ ys) = keepFirst xs ++ (keepFirst ys).filter (fun y => !xs.contains y) := by
  rw [← foldl_setAdd_nil, List.foldl_append, foldl_setAdd_nil, foldl_setAdd]
  congr 1
  apply List.filter_congr
  intro y _
  simp [mem_keepFirst]

theorem drop_of_suffix (content front back : Str) (h : content = front ++ back) :
    content.drop (content.length - back.length) = back := by
  subst h
  simp

theorem scanLoop_past_end (re : List Tok) (g : Nat) (content : Str) (fuel li : Nat)
    (links : List Str) (h : content.length < li) :
    scanLoop re g content (fuel + 1) li links = some (links, 0) := by
  simp [scanLoop, exec, h]

theorem scanLoop_spec (re : List Tok) (g : Nat) (hmin : 0 < minLen re) (content : Str) :
    ∀ fuel li links, li ≤ content.length → content.length < fuel + li →
      ∃ targets, SuccessiveMatches re g (content.drop li) targets ∧
        scanLoop re g content fuel li links = some (targets.foldl setAdd links, 0) := by
  intro fuel
  induction fuel with
  | zero => intro li links h1 h2; omega
  | succ fuel ih =>
    intro li links hle hfuel
    simp only [scanLoop, exec, if_neg (Nat.not_lt.2 hle)]
    cases hs : search re (content.drop li) with
    | none =>
      exact ⟨[], SuccessiveMatches.done _ (search_none re _ hs), by simp⟩
    | some found =>
      obtain ⟨inp, r⟩ := found
      obtain ⟨skipped, htext, hmatch, hearlier⟩ := search_some re _ inp r hs
      obtain ⟨pre, hpre, hlen⟩ := matchHere_consumes re inp r hmatch
      have hcontent : content = (content.take li ++ skipped ++ pre) ++ r.1 := by
        conv_lhs => rw [← List.take_append_drop li content, htext, hpre]
        simp
      have hlength : content.length = li + skipped.length + pre.length + r.1.length := by
        conv_lhs => rw [hcontent]
        simp only [List.length_append, List.length_take, Nat.min_eq_left hle]
      have hdrop := drop_of_suffix content _ r.1 hcontent
      obtain ⟨targets, hscan, hloop⟩ :=
        ih (content.length - r.1.length) (setAdd links ((matchArray inp r).getD g []))
          (by omega) (by omega)
      rw [hdrop] at hscan
      refine ⟨(matchArray inp r).getD g [] :: targets, ?_, ?_⟩
      · rw [htext]
        exact SuccessiveMatches.hit skipped inp r targets (htext ▸ hearlier) hmatch hscan
      · simpa using hloop

theorem scanLoop_total (re : List Tok) (g : Nat) (hmin : 0 < minLen re) (content : Str)
    (fuel li : Nat) (links : List Str) (hfuel : content.length < fuel) :
    ∃ links2, scanLoop re g content fuel li links = some (links2, 0) := by
  by_cases hle : li ≤ content.length
  · obtain ⟨targets, _, h⟩ := scanLoop_spec re g hmin content fuel li links hle (by omega)
    exact ⟨_, h⟩
  · obtain ⟨n, rfl⟩ : ∃ n, fuel = n + 1 := ⟨fuel - 1, by omega⟩
    exact ⟨links, scanLoop_past_end re g content n li links (by omega)⟩

theorem SuccessiveMatches.unique (re : List Tok) (g : Nat) :
    ∀ text a, SuccessiveMatches re g text a → ∀ b, SuccessiveMatches re g text b → a = b := by
  intro text a ha
  induction ha with
  | done text hnone =>
    intro b hb
    cases hb with
    | done _ _ => rfl
    | hit skipped inp r targets hearlier hmatch hrest =>
      have := hnone inp (List.suffix_append skipped inp)
      rw [this] at hmatch
      simp at hmatch
  | hit skipped inp r targets hearlier hmatch hrest ih =>
    intro b hb
    generalize htext : skipped ++ inp = text at hb hearlier
    cases hb with
    | done _ hnone =>
      have := hnone inp (htext ▸ List.suffix_append skipped inp)
      rw [this] at hmatch
      simp at hmatch
    | hit skipped2 inp2 r2 targets2 hearlier2 hmatch2 hrest2 =>
      have hs1 : inp <:+ skipped2 ++ inp2 := htext ▸ List.suffix_append skipped inp
      have hlen : inp.length = inp2.length := by
        rcases Nat.lt_trichotomy inp.length inp2.length with h | h | h
        · have := hearlier inp2 (List.suffix_append skipped2 inp2) h
          rw [this] at hmatch2
          simp at hmatch2
        · exact h
        · have := hearlier2 inp hs1 h
          rw [this] at hmatch
          simp at hmatch
      have hinp : inp = inp2 :=
        List.IsSuffix.eq_of_length
          (List.suffix_of_suffix_length_le hs1 (List.suffix_append skipped2 inp2) (by omega))
          hlen
      subst hinp
      rw [hmatch] at hmatch2
      simp only [Option.some.injEq] at hmatch2
      subst hmatch2
      rw [ih targets2 hrest2]

theorem minLen_MARKDOWN : 0 < minLen MARKDOWN_LINK_REGEX := by decide

theorem minLen_MDX : 0 < minLen MDX_LINK_REGEX := by decide

theorem extractLinks_run (content : Str) (s : State) :
    ∃ links1 links2,
      scanLoop MARKDOWN_LINK_REGEX 2 content (content.length + 1) s.mdLastIndex [] =
        some (links1, 0) ∧
      scanLoop MDX_LINK_REGEX 1 content (content.length + 1) s.mdxLastIndex links1 =
        some (links2, 0) ∧
      extractLinks content s = some (links2, { s with mdLastIndex := 0, mdxLastIndex := 0 }) := by
  obtain ⟨links1, h1⟩ := scanLoop_total MARKDOWN_LINK_REGEX 2 minLen_MARKDOWN content
    (content.length + 1) s.mdLastIndex [] (by omega)
  obtain ⟨links2, h2⟩ := scanLoop_total MDX_LINK_REGEX 1 minLen_MDX content
    (content.length + 1) s.mdxLastIndex links1 (by omega)
  refine ⟨links1, links2, h1, h2, ?_⟩
  simp only [extractLinks, extractLinksFuel, h1, h2]

theorem scanLoop_enough_fuel (re : List Tok) (g : Nat) (hmin : 0 < minLen re) (content : Str)
    (fuel1 fuel2 li : Nat) (links : List Str)
    (h1 : content.length < fuel1) (h2 : content.length < fuel2) :
    scanLoop re g content fuel1 li links = scanLoop re g content fuel2 li links := by
  by_cases hle : li ≤ content.length
  · obtain ⟨t1, hs1, e1⟩ := scanLoop_spec re g hmin content fuel1 li links hle (by omega)
    obtain ⟨t2, hs2, e2⟩ := scanLoop_spec re g hmin content fuel2 li links hle (by omega)
    rw [e1, e2, SuccessiveMatches.unique re g _ _ hs1 _ hs2]
  · obtain ⟨n1, rfl⟩ : ∃ n, fuel1 = n + 1 := ⟨fuel1 - 1, by omega⟩
    obtain ⟨n2, rfl⟩ : ∃ n, fuel2 = n + 1 := ⟨fuel2 - 1, by omega⟩
    rw [scanLoop_past_end re g content n1 li links (by omega),
      scanLoop_past_end re g content n2 li links (by omega)]

/-- Any number of iterations above the length of the text gives the result of
`extractLinks`: the bound is never reached. -/
theorem extractLinksFuel_enough (fuel : Nat) (content : Str) (s : State)
    (h : content.length < fuel) :
    extractLinksFuel fuel content s = extractLinks content s := by
  unfold extractLinks extractLinksFuel
  rw [scanLoop_enough_fuel MARKDOWN_LINK_REGEX 2 minLen_MARKDOWN content fuel
    (content.length + 1) s.mdLastIndex [] h (by omega)]
  cases scanLoop MARKDOWN_LINK_REGEX 2 content (content.length + 1) s.mdLastIndex [] with
  | none => rfl
  | some r =>
    simp only
    rw [scanLoop_enough_fuel MDX_LINK_REGEX 1 minLen_MDX content fuel
      (content.length + 1) s.mdxLastIndex r.1 h (by omega)]

/-- C8. When both regular expressions are at `lastIndex` 0, `extractLinks`
returns the targets of the successive matches of the bracket pattern followed
by those of the attribute pattern, each scanned from the start of the text,
with repetitions dropped after the first occurrence: the list has no
duplicates, its elements are exactly the captured targets, and the
bracket-pattern targets come first. -/
theorem extractLinks_spec (content : Str) (s : State)
    (hmd : s.mdLastIndex = 0) (hmdx : s.mdxLastIndex = 0) :
    ∃ md mdx,
      SuccessiveMatches MARKDOWN_LINK_REGEX 2 content md ∧
      SuccessiveMatches MDX_LINK_REGEX 1 content mdx ∧
      (∀ md2, SuccessiveMatches MARKDOWN_LINK_REGEX 2 content md2 → md2 = md) ∧
      (∀ mdx2, SuccessiveMatches MDX_LINK_REGEX 1 content mdx2 → mdx2 = mdx) ∧
      (extractLinks content s).map Prod.fst = some (keepFirst (md ++ mdx)) ∧
      (keepFirst (md ++ mdx)).Nodup ∧
      (∀ x, x ∈ keepFirst (md ++ mdx) ↔ x ∈ md ∨ x ∈ mdx) ∧
      keepFirst (md ++ mdx) = keepFirst md ++ (keepFirst mdx).filter (fun x => !md.contains x) := by
  obtain ⟨md, hsmd, hlmd⟩ := scanLoop_spec MARKDOWN_LINK_REGEX 2 minLen_MARKDOWN content
    (content.length + 1) 0 [] (by omega) (by omega)
  obtain ⟨mdx, hsmdx, hlmdx⟩ := scanLoop_spec MDX_LINK_REGEX 1 minLen_MDX content
    (content.length + 1) 0 (md.foldl setAdd []) (by omega) (by omega)
  rw [List.drop_zero] at hsmd hsmdx
  refine ⟨md, mdx, hsmd, hsmdx, ?_, ?_, ?_, nodup_keepFirst _, ?_, keepFirst_append md mdx⟩
  · intro md2 h2
    exact SuccessiveMatches.unique _ _ _ _ h2 _ hsmd
  · intro mdx2 h2
    exact SuccessiveMatches.unique _ _ _ _ h2 _ hsmdx
  · simp only [extractLinks, extractLinksFuel, hmd, hmdx, hlmd, hlmdx, Option.map_some']
    rw [← List.foldl_append, foldl_setAdd_nil]
  · intro x
    rw [mem_keepFirst, List.mem_append]

/-- C8 on `demoText` from the initial state. -/
theorem extractLinks_spec_witness :
    State.init.mdLastIndex = 0 ∧ State.init.mdxLastIndex = 0 ∧
    (extractLinks demoText State.init).map Prod.fst =
      some ["https://a.example".toList, "/docs/b".toList, "#top".toList] ∧
    ∃ md mdx,
      SuccessiveMatches MARKDOWN_LINK_REGEX 2 demoText md ∧
      SuccessiveMatches MDX_LINK_REGEX 1 demoText mdx ∧
      (∀ md2, SuccessiveMatches MARKDOWN_LINK_REGEX 2 demoText md2 → md2 = md) ∧
      (∀ mdx2, SuccessiveMatches MDX_LINK_REGEX 1 demoText mdx2 → mdx2 = mdx) ∧
      (extractLinks demoText State.init).map Prod.fst = some (keepFirst (md ++ mdx)) ∧
      (keepFirst (md ++ mdx)).Nodup ∧
      (∀ x, x ∈ keepFirst (md ++ mdx) ↔ x ∈ md ∨ x ∈ mdx) ∧
      keepFirst (md ++ mdx) = keepFirst md ++ (keepFirst mdx).filter (fun x => !md.contains x) :=
  ⟨rfl, rfl, by decide, extractLinks_spec demoText State.init rfl rfl⟩

/-- C9. From any state, `extractLinks(A)` returns and leaves both regular
expressions at `lastIndex` 0; a following `extractLinks(B)` returns the list
that `extractLinks(B)` returns on the freshly loaded module, and a second
`extractLinks(B)` right after it returns that list again. -/
theorem extractLinks_stateless (A B : Str) (s : State) :
    ∃ la sa lb sb,
      extractLinks A s = some (la, sa) ∧ sa.mdLastIndex = 0 ∧ sa.mdxLastIndex = 0 ∧
      extractLinks B sa = some (lb, sb) ∧ sb.mdLastIndex = 0 ∧ sb.mdxLastIndex = 0 ∧
      (extractLinks B State.init).map Prod.fst = some lb ∧
      (extractLinks B sb).map Prod.fst = some lb := by
  obtain ⟨la1, la, _, _, hA⟩ := extractLinks_run A s
  obtain ⟨lb1, lb, hb1, hb2, hB⟩ :=
    extractLinks_run B { s with mdLastIndex := 0, mdxLastIndex := 0 }
  obtain ⟨lc1, lc, hc1, hc2, hC⟩ := extractLinks_run B State.init
  obtain ⟨ld1, ld, hd1, hd2, hD⟩ := extractLinks_run B
    { ({ s with mdLastIndex := 0, mdxLastIndex := 0 } : State) with
      mdLastIndex := 0, mdxLastIndex := 0 }
  refine ⟨la, _, lb, _, hA, rfl, rfl, hB, rfl, rfl, ?_, ?_⟩
  · have e1 : lc1 = lb1 := by
      have := hc1.symm.trans hb1
      simpa using this
    subst e1
    have e2 : lc = lb := by
      have := hc2.symm.trans hb2
      simpa using this
    subst e2
    rw [hC]; rfl
  · have e1 : ld1 = lb1 := by
      have := hd1.symm.trans hb1
      simpa using this
    subst e1
    have e2 : ld = lb := by
      have := hd2.symm.trans hb2
      simpa using this
    subst e2
    rw [hD]; rfl

/-! ## Theorems: `validatePost` -/

theorem isExcluded_iff (link : Str) : isExcluded link = true ↔ ExcludedLink link := by
  simp [isExcluded, ExcludedLink, startsWith, or_assoc]

theorem isExternal_iff (link : Str) : isExternal link = true ↔ ExternalLink link := by
  simp [isExternal, ExternalLink, startsWith]

theorem startsWith_slash_iff (link : Str) :
    startsWith link "/".toList = true ↔ InternalLink link := by
  simp [InternalLink, startsWith]

theorem checkUrl_keeps (env : Env) (url : Str) (s : State) :
    (checkUrl env url s).2.results = s.results ∧ (checkUrl env url s).2.reads = s.reads ∧
    (checkUrl env url s).2.mdLastIndex = s.mdLastIndex ∧
    (checkUrl env url s).2.mdxLastIndex = s.mdxLastIndex := by
  unfold checkUrl
  cases hc : mapGet s.urlCache url with
  | some b => simp
  | none =>
    cases hh : env.fetch s.probes Method.HEAD url with
    | response status => simp
    | threw =>
      cases hg : env.fetch (s.probes ++ [(Method.HEAD, url)]) Method.GET url with
      | response status => simp [hg]
      | threw => simp [hg]

theorem tryRead_keeps (env : Env) (paths : List Str) :
    ∀ s : State, (tryRead env paths s).2.results = s.results ∧
      (tryRead env paths s).2.probes = s.probes ∧
      (tryRead env paths s).2.urlCache = s.urlCache := by
  induction paths with
  | nil => intro s; simp [tryRead]
  | cons f rest ih =>
    intro s
    simp only [tryRead]
    cases hf : env.readFile f with
    | some text => simp
    | none =>
      have := ih { s with reads := s.reads ++ [f] }
      simpa using this

theorem checkInternalLink_keeps (env : Env) (link : Str) (s : State) :
    (checkInternalLink env link s).2.results = s.results ∧
    (checkInternalLink env link s).2.probes = s.probes ∧
    (checkInternalLink env link s).2.urlCache = s.urlCache := by
  unfold checkInternalLink
  simp only []
  split
  · split
    · simp
    · have h1 := tryRead_keeps env (blogPossiblePaths env (removeBlogRoot (linkPath link))) s
      cases ht : tryRead env (blogPossiblePaths env (removeBlogRoot (linkPath link))) s with
      | mk b s1 =>
        rw [ht] at h1
        cases b with
        | true => simpa using h1
        | false =>
          have h2 := tryRead_keeps env (possiblePaths env (linkPath link)) s1
          simp only at h1 ⊢
          rw [← h1.1, ← h1.2.1, ← h1.2.2]
          exact h2
  · exact tryRead_keeps env _ s

theorem validateLink_total (env : Env) (fileName link : Str) (s : State) :
    (validateLink env fileName link s).results.total = s.results.total + 1 := by
  unfold validateLink
  split
  · simp [pushSkipped, Results.total]; omega
  · split
    · have hk := (checkUrl_keeps env link s).1
      cases hc : checkUrl env link s with
      | mk b s1 =>
        rw [hc] at hk
        simp only at hk
        cases b with
        | true => simp [pushValid, Results.total, hk]; omega
        | false => simp [pushInvalid, Results.total, hk]; omega
    · split
      · have hk := (checkInternalLink_keeps env link s).1
        cases hc : checkInternalLink env link s with
        | mk b s1 =>
          rw [hc] at hk
          simp only at hk
          cases b with
          | true => simp [pushInternal, Results.total, hk]; omega
          | false => simp [pushInvalid, Results.total, hk]; omega
      · simp [pushSkipped, Results.total]; omega

theorem validateLinks_total (env : Env) (fileName : Str) (links : List Str) :
    ∀ s : State,
      (validateLinks env fileName links s).results.total = s.results.total + links.length := by
  induction links with
  | nil => intro s; simp [validateLinks]
  | cons l ls ih =>
    intro s
    simp only [validateLinks, List.length_cons]
    rw [ih, validateLink_total]
    omega

theorem validateLinks_snoc (env : Env) (fileName link : Str) (pre : List Str) :
    ∀ s : State,
      validateLinks env fileName (pre ++ [link]) s =
        validateLink env fileName link (validateLinks env fileName pre s) := by
  induction pre with
  | nil => intro s; rfl
  | cons l ls ih =>
    intro s
    simp only [List.cons_append, validateLinks]
    exact ih _

theorem validateLink_excluded (env : Env) (fileName link : Str) (s : State)
    (hex : ExcludedLink link) :
    validateLink env fileName link s =
      { s with results := { s.results with skipped := s.results.skipped ++
        [{ file := fileName, link := link, reason := some "Protocol excluded".toList }] } } := by
  have h := (isExcluded_iff link).2 hex
  simp only [validateLink, h, if_true, pushSkipped]

theorem validateLink_external (env : Env) (fileName link : Str) (s : State)
    (hex : ¬ ExcludedLink link) (hext : ExternalLink link) :
    ((checkUrl env link s).1 = true →
      validateLink env fileName link s =
        { (checkUrl env link s).2 with results := { s.results with valid := s.results.valid ++
          [{ file := fileName, link := link }] } }) ∧
    ((checkUrl env link s).1 = false →
      validateLink env fileName link s =
        { (checkUrl env link s).2 with results := { s.results with invalid := s.results.invalid ++
          [{ file := fileName, link := link }] } }) := by
  have h1 : isExcluded link = false := by
    rw [← Bool.not_eq_true, isExcluded_iff]; exact hex
  have h2 := (isExternal_iff link).2 hext
  have hk := (checkUrl_keeps env link s).1
  simp only [validateLink, h1, h2, if_true, Bool.false_eq_true, if_false]
  cases hc : checkUrl env link s with
  | mk b s1 =>
    rw [hc] at hk
    simp only at hk
    cases b with
    | true => simp [pushValid, hk]
    | false => simp [pushInvalid, hk]

theorem validateLink_internal (env : Env) (fileName link : Str) (s : State)
    (hex : ¬ ExcludedLink link) (hext : ¬ ExternalLink link) (hint : InternalLink link) :
    ((checkInternalLink env link s).1 = true →
      validateLink env fileName link s =
        { (checkInternalLink env link s).2 with
          results := { s.results with internal := s.results.internal ++
            [{ file := fileName, link := link, status := some "valid".toList }] } }) ∧
    ((checkInternalLink env link s).1 = false →
      validateLink env fileName link s =
        { (checkInternalLink env link s).2 with
          results := { s.results with invalid := s.results.invalid ++
            [{ file := fileName, link := link, type := some "internal".toList }] } }) := by
  have h1 : isExcluded link = false := by
    rw [← Bool.not_eq_true, isExcluded_iff]; exact hex
  have h2 : isExternal link = false := by
    rw [← Bool.not_eq_true, isExternal_iff]; exact hext
  have h3 := (startsWith_slash_iff link).2 hint
  have hk := (checkInternalLink_keeps env link s).1
  simp only [validateLink, h1, h2, h3, if_true, Bool.false_eq_true, if_false]
  cases hc : checkInternalLink env link s with
  | mk b s1 =>
    rw [hc] at hk
    simp only at hk
    cases b with
    | true => simp [pushInternal, hk]
    | false => simp [pushInvalid, hk]

theorem validateLink_relative (env : Env) (fileName link : Str) (s : State)
    (hex : ¬ ExcludedLink link) (hext : ¬ ExternalLink link) (hint : ¬ InternalLink link) :
    validateLink env fileName link s =
      { s with results := { s.results with skipped := s.results.skipped ++
        [{ file := fileName, link := link, reason := some "Relative link".toList }] } } := by
  have h1 : isExcluded link = false := by
    rw [← Bool.not_eq_true, isExcluded_iff]; exact hex
  have h2 : isExternal link = false := by
    rw [← Bool.not_eq_true, isExternal_iff]; exact hext
  have h3 : startsWith link "/".toList = false := by
    rw [← Bool.not_eq_true, startsWith_slash_iff]; exact hint
  simp only [validateLink, h1, h2, h3, Bool.false_eq_true, if_false, pushSkipped]

/-- C1. What `validatePost` does with the extracted links.  For a post that
can be read, the call returns the state of its loop run over the list that
`extractLinks` returns, under the last segment of the path as file name.  The
loop over no link changes nothing, and the loop over `pre ++ [link]` is the
loop over `pre` followed by one push for `link`, by the first case that
applies: a link that starts with `mailto:`, `tel:` or `#` is pushed to
`skipped` and nothing else changes (cache and both access logs included);
otherwise a link that starts with `http://` or `https://` is pushed to `valid`
or to `invalid` as `checkUrl` answers, on the state that call leaves;
otherwise a link that starts with `/` is pushed to `internal` or to `invalid`
as `checkInternalLink` answers, on the state that call leaves; any other link
is pushed to `skipped` and nothing else changes.  Each link adds one entry. -/
theorem validatePost_classifies (env : Env) (fileName : Str) (pre : List Str) (link : Str)
    (s : State) :
    validateLinks env fileName [] s = s ∧
    (ExcludedLink link →
      validateLinks env fileName (pre ++ [link]) s =
        { validateLinks env fileName pre s with
          results := { (validateLinks env fileName pre s).results with
            skipped := (validateLinks env fileName pre s).results.skipped ++
              [{ file := fileName, link := link, reason := some "Protocol excluded".toList }] } } ∧
      (validateLinks env fileName (pre ++ [link]) s).probes = (validateLinks env fileName pre s).probes ∧
      (validateLinks env fileName (pre ++ [link]) s).reads = (validateLinks env fileName pre s).reads ∧
      (validateLinks env fileName (pre ++ [link]) s).urlCache = (validateLinks env fileName pre s).urlCache) ∧
    (¬ ExcludedLink link → ExternalLink link →
      ((checkUrl env link (validateLinks env fileName pre s)).1 = true →
        validateLinks env fileName (pre ++ [link]) s =
          { (checkUrl env link (validateLinks env fileName pre s)).2 with
          results := { (validateLinks env fileName pre s).results with
            valid := (validateLinks env fileName pre s).results.valid ++
              [{ file := fileName, link := link }] } }) ∧
      ((checkUrl env link (validateLinks env fileName pre s)).1 = false →
        validateLinks env fileName (pre ++ [link]) s =
          { (checkUrl env link (validateLinks env fileName pre s)).2 with
          results := { (validateLinks env fileName pre s).results with
            invalid := (validateLinks env fileName pre s).results.invalid ++
              [{ file := fileName, link := link }] } }) ∧
      (validateLinks env fileName (pre ++ [link]) s).reads = (validateLinks env fileName pre s).reads) ∧
    (¬ ExcludedLink link → ¬ ExternalLink link → InternalLink link →
      ((checkInternalLink env link (validateLinks env fileName pre s)).1 = true →
        validateLinks env fileName (pre ++ [link]) s =
          { (checkInternalLink env link (validateLinks env fileName pre s)).2 with
          results := { (validateLinks env fileName pre s).results with
            internal := (validateLinks env fileName pre s).results.internal ++
              [{ file := fileName, link := link, status := some "valid".toList }] } }) ∧
      ((checkInternalLink env link (validateLinks env fileName pre s)).1 = false →
        validateLinks env fileName (pre ++ [link]) s =
          { (checkInternalLink env link (validateLinks env fileName pre s)).2 with
          results := { (validateLinks env fileName pre s).results with
            invalid := (validateLinks env fileName pre s).results.invalid ++
              [{ file := fileName, link := link, type := some "internal".toList }] } }) ∧
      (validateLinks env fileName (pre ++ [link]) s).probes = (validateLinks env fileName pre s).probes ∧
      (validateLinks env fileName (pre ++ [link]) s).urlCache = (validateLinks env fileName pre s).urlCache) ∧
    (¬ ExcludedLink link → ¬ ExternalLink link → ¬ InternalLink link →
      validateLinks env fileName (pre ++ [link]) s =
        { validateLinks env fileName pre s with
          results := { (validateLinks env fileName pre s).results with
            skipped := (validateLinks env fileName pre s).results.skipped ++
              [{ file := fileName, link := link, reason := some "Relative link".toList }] } } ∧
      (validateLinks env fileName (pre ++ [link]) s).probes = (validateLinks env fileName pre s).probes ∧
      (validateLinks env fileName (pre ++ [link]) s).reads = (validateLinks env fileName pre s).reads ∧
      (validateLinks env fileName (pre ++ [link]) s).urlCache = (validateLinks env fileName pre s).urlCache) ∧
    (validateLinks env fileName (pre ++ [link]) s).results.total = (validateLinks env fileName pre s).results.total + 1 ∧
    (∀ filePath content, env.readFile filePath = some content →
      (validatePost env filePath s).2 = none ∧
      ∃ links,
        extractLinks content { s with reads := s.reads ++ [filePath] } =
          some (links,
            { s with reads := s.reads ++ [filePath], mdLastIndex := 0, mdxLastIndex := 0 }) ∧
        (validatePost env filePath s).1 =
          validateLinks env ((split '/' filePath).getLastD []) links
            { s with reads := s.reads ++ [filePath], mdLastIndex := 0, mdxLastIndex := 0 } ∧
        (validatePost env filePath s).1.results.total = s.results.total + links.length) := by
  have hsnoc := validateLinks_snoc env fileName link pre s
  refine ⟨rfl, ?_, ?_, ?_, ?_, ?_, ?_⟩
  · intro hex
    have h := validateLink_excluded env fileName link (validateLinks env fileName pre s) hex
    rw [hsnoc, h]
    exact ⟨rfl, rfl, rfl, rfl⟩
  · intro hex hext
    have h := validateLink_external env fileName link (validateLinks env fileName pre s) hex hext
    rw [hsnoc]
    refine ⟨h.1, h.2, ?_⟩
    cases hb : (checkUrl env link (validateLinks env fileName pre s)).1 with
    | true => rw [h.1 hb]; exact (checkUrl_keeps env link _).2.1
    | false => rw [h.2 hb]; exact (checkUrl_keeps env link _).2.1
  · intro hex hext hint
    have h := validateLink_internal env fileName link (validateLinks env fileName pre s) hex hext hint
    have hk := checkInternalLink_keeps env link (validateLinks env fileName pre s)
    rw [hsnoc]
    refine ⟨h.1, h.2, ?_⟩
    cases hb : (checkInternalLink env link (validateLinks env fileName pre s)).1 with
    | true => rw [h.1 hb]; exact ⟨hk.2.1, hk.2.2⟩
    | false => rw [h.2 hb]; exact ⟨hk.2.1, hk.2.2⟩
  · intro hex hext hint
    have h := validateLink_relative env fileName link (validateLinks env fileName pre s) hex hext hint
    rw [hsnoc, h]
    exact ⟨rfl, rfl, rfl, rfl⟩
  · rw [hsnoc]
    exact validateLink_total env fileName link _
  · intro filePath content hread
    obtain ⟨l1, links, _, _, hx⟩ :=
      extractLinks_run content { s with reads := s.reads ++ [filePath] }
    have hv : validatePost env filePath s =
        (validateLinks env ((split '/' filePath).getLastD []) links
          { s with reads := s.reads ++ [filePath], mdLastIndex := 0, mdxLastIndex := 0 },
          none) := by
      simp only [validatePost, hread, hx]
    refine ⟨by rw [hv], links, hx, by rw [hv], ?_⟩
    rw [hv]
    simp only
    rw [validateLinks_total]

/-- C1 on the site `envMixed`: the post `b.md` holds a mail link, a reachable
external link, a broken internal link and a relative link, and each lands in
its bucket. -/
theorem validatePost_classifies_witness :
    envMixed.readFile postB = some mixedText ∧
    (validatePost envMixed postB State.init).2 = none ∧
    (validatePost envMixed postB State.init).1.results =
      { valid := [{ file := "b.md".toList, link := pageUrl }],
        invalid := [{ file := "b.md".toList, link := "/missing".toList,
                      type := some "internal".toList }],
        skipped := [{ file := "b.md".toList, link := mailLink,
                      reason := some "Protocol excluded".toList },
                    { file := "b.md".toList, link := "other.md".toList,
                      reason := some "Relative link".toList }],
        internal := [] } ∧
    ExcludedLink mailLink ∧
    validateLinks envMixed postName ([] ++ [mailLink]) State.init =
      { State.init with
        results := { skipped := [{ file := postName, link := mailLink,
                                   reason := some "Protocol excluded".toList }] } } :=
  have h : ExcludedLink mailLink := Or.inl (by decide)
  ⟨by decide,
    ((validatePost_classifies envMixed postName [] mailLink State.init).2.2.2.2.2.2
      postB mixedText (by decide)).1,
    by decide, h,
    ((validatePost_classifies envMixed postName [] mailLink State.init).2.1 h).1⟩

/-! ## Theorems: `main` -/

theorem validatePost_of_read (env : Env) (filePath content : Str) (s : State)
    (hread : env.readFile filePath = some content) :
    ∃ links s1,
      extractLinks content { s with reads := s.reads ++ [filePath] } = some (links, s1) ∧
      s1.results = s.results ∧
      validatePost env filePath s =
        (validateLinks env ((split '/' filePath).getLastD []) links s1, none) := by
  obtain ⟨l1, links, _, _, hx⟩ :=
    extractLinks_run content { s with reads := s.reads ++ [filePath] }
  refine ⟨links, _, hx, rfl, ?_⟩
  simp only [validatePost, hread, hx]

theorem validatePost_of_unreadable (env : Env) (filePath : Str) (s : State)
    (hread : env.readFile filePath = none) :
    validatePost env filePath s =
      ({ s with reads := s.reads ++ [filePath] }, some (Fault.readFailed filePath)) := by
  simp only [validatePost, hread]

theorem validatePosts_of_read (env : Env) (files : List Str) :
    ∀ s : State, (∀ f ∈ files, (env.readFile f).isSome = true) →
      (validatePosts env files s).2 = none := by
  induction files with
  | nil => intro s _; rfl
  | cons f fs ih =>
    intro s h
    have hf := h f (List.mem_cons_self f fs)
    obtain ⟨content, hc⟩ := Option.isSome_iff_exists.1 hf
    obtain ⟨links, s1, _, _, hv⟩ := validatePost_of_read env f content s hc
    simp only [validatePosts, hv]
    exact ih _ (fun g hg => h g (List.mem_cons_of_mem f hg))

theorem validatePosts_append (env : Env) (xs ys : List Str) :
    ∀ s : State, (validatePosts env xs s).2 = none →
      validatePosts env (xs ++ ys) s = validatePosts env ys (validatePosts env xs s).1 := by
  induction xs with
  | nil => intro s _; rfl
  | cons f fs ih =>
    intro s h
    simp only [List.cons_append, validatePosts] at h ⊢
    cases hv : validatePost env f s with
    | mk s1 e =>
      rw [hv] at h
      cases e with
      | none => exact ih s1 h
      | some e => simp at h

/-- C5, as stated, fails: the blog directory lists `a.md`, which cannot be
read, and `b.md`, which holds a broken internal link.  The run ends with the
rejection at `a.md`: `b.md` is never read, every bucket is empty, and the exit
status is 0. -/
theorem main_halts_on_unreadable_post :
    getBlogFiles envTwoPosts = [postA, postB] ∧
    envTwoPosts.readFile postA = none ∧
    (envTwoPosts.readFile postB).isSome = true ∧
    (validatePost envTwoPosts postB State.init).1.results.invalid =
      [{ file := "b.md".toList, link := "/missing".toList, type := some "internal".toList }] ∧
    (run envTwoPosts).1 = Outcome.rejected (Fault.readFailed postA) ∧
    (run envTwoPosts).2.results = {} ∧
    (run envTwoPosts).2.reads = [postA] ∧
    exitStatus (run envTwoPosts).1 = 0 := by
  decide

/-- C5, amended. When reading one of the discovered article files fails,
`main` rejects with that failure: the files before it have been validated,
the failing read is the last access, no later file is read or validated, and
the buckets hold what the earlier files put there. -/
theorem main_stops_at_read_failure (env : Env) (before after : List Str) (bad : Str)
    (s : State)
    (hfiles : getBlogFiles env = before ++ bad :: after)
    (hbefore : ∀ f ∈ before, (env.readFile f).isSome = true)
    (hbad : env.readFile bad = none) :
    (main env s).1 = Outcome.rejected (Fault.readFailed bad) ∧
    (validatePosts env before s).2 = none ∧
    (main env s).2 =
      { (validatePosts env before s).1 with
        reads := (validatePosts env before s).1.reads ++ [bad] } := by
  have hok := validatePosts_of_read env before s hbefore
  have hrun : validatePosts env (before ++ bad :: after) s =
      ({ (validatePosts env before s).1 with
          reads := (validatePosts env before s).1.reads ++ [bad] },
        some (Fault.readFailed bad)) := by
    rw [validatePosts_append env before (bad :: after) s hok]
    simp only [validatePosts, validatePost_of_unreadable env bad _ hbad]
  have hlen : ¬ (before ++ bad :: after).length = 0 := by simp
  simp only [main, hfiles, hrun, if_neg hlen]
  exact ⟨trivial, hok, trivial⟩

/-- C5, amended, on the site `envTwoPosts`. -/
theorem main_stops_at_read_failure_witness :
    getBlogFiles envTwoPosts = [] ++ postA :: [postB] ∧
    (∀ f ∈ ([] : List Str), (envTwoPosts.readFile f).isSome = true) ∧
    envTwoPosts.readFile postA = none ∧
    (main envTwoPosts State.init).1 = Outcome.rejected (Fault.readFailed postA) :=
  ⟨by decide, by decide, by decide,
    (main_stops_at_read_failure envTwoPosts [] [postB] postA State.init
      (by decide) (by decide) (by decide)).1⟩

/-- C6. When every discovered article file can be read, the run ends with
exit status 1 exactly when the invalid bucket is not empty at the end, and
with status 0 otherwise; `main` does not reject.  A run that discovers no
article file, as when the blog directory cannot be listed, ends with status 0
and empty buckets. -/
theorem main_exit_status (env : Env)
    (hread : ∀ f ∈ getBlogFiles env, (env.readFile f).isSome = true) :
    (exitStatus (run env).1 = 1 ↔ (run env).2.results.invalid ≠ []) ∧
    (exitStatus (run env).1 = 0 ↔ (run env).2.results.invalid = []) ∧
    (∀ e, (run env).1 ≠ Outcome.rejected e) ∧
    (getBlogFiles env = [] → exitStatus (run env).1 = 0 ∧ (run env).2.results = {}) ∧
    (env.readdir env.BLOG_DIR = none → getBlogFiles env = []) := by
  have hok := validatePosts_of_read env (getBlogFiles env) State.init hread
  refine ⟨?_, ?_, ?_, ?_, ?_⟩
  all_goals try simp only [run, main]
  · by_cases h0 : (getBlogFiles env).length = 0
    · simp [h0, exitStatus, State.init]
    · rw [if_neg h0]
      cases hv : validatePosts env (getBlogFiles env) State.init with
      | mk s1 e =>
        rw [hv] at hok
        simp only at hok
        subst hok
        by_cases hi : 0 < s1.results.invalid.length
        · simp [hi, exitStatus, List.ne_nil_of_length_pos hi]
        · have : s1.results.invalid = [] := List.length_eq_zero.1 (by omega)
          simp [this, exitStatus]
  · by_cases h0 : (getBlogFiles env).length = 0
    · simp [h0, exitStatus, State.init]
    · rw [if_neg h0]
      cases hv : validatePosts env (getBlogFiles env) State.init with
      | mk s1 e =>
        rw [hv] at hok
        simp only at hok
        subst hok
        by_cases hi : 0 < s1.results.invalid.length
        · simp [hi, exitStatus, List.ne_nil_of_length_pos hi]
        · have : s1.results.invalid = [] := List.length_eq_zero.1 (by omega)
          simp [this, exitStatus]
  · intro e
    by_cases h0 : (getBlogFiles env).length = 0
    · simp [h0]
    · rw [if_neg h0]
      cases hv : validatePosts env (getBlogFiles env) State.init with
      | mk s1 e2 =>
        rw [hv] at hok
        simp only at hok
        subst hok
        by_cases hi : 0 < s1.results.invalid.length
        · simp [hi]
        · simp [hi]
  · intro hnil
    simp [hnil, exitStatus, State.init]
  · intro hnone
    simp [getBlogFiles, hnone]

/-- C6 on the site `envBroken`: its one post can be read and holds a broken
internal link, so the run ends with status 1. -/
theorem main_exit_status_witness :
    (∀ f ∈ getBlogFiles envBroken, (envBroken.readFile f).isSome = true) ∧
    exitStatus (run envBroken).1 = 1 ∧
    (run envBroken).2.results.invalid ≠ [] :=
  have h : ∀ f ∈ getBlogFiles envBroken, (envBroken.readFile f).isSome = true := by decide
  ⟨h, by decide, (main_exit_status envBroken h).1.1 (by decide)⟩

end ValidateLinks
